import Mathlib

/-
  Verification development for the ledger-state core of the bazuka node
  (src/blockchain.rs and src/node/api/transact_contract_payment.rs),
  checked against the design specification.

  The Rust source is shallowly embedded: pure functions become Lean
  functions, the key-value store becomes an explicit function from keys to
  results, panics (unwrap on Err, out-of-bounds indexing, unimplemented)
  become an explicit `panicked` outcome, and machine integers become Nat.
-/

namespace Bazuka

/-- Modelled from the spec: the type Address lives in the primitives module,
which is not part of the sources at hand. The spec describes it as an opaque
fixed-form identifier with a canonical textual representation (the Rust code
formats it with the Debug formatter). We model it as a wrapper around that
canonical string. -/
structure Address where
  repr : String
deriving DecidableEq

/-- Source: struct StringKey(String) in blockchain.rs. -/
structure StringKey where
  val : String
deriving DecidableEq

/-- Source: StringKey::new in blockchain.rs. -/
def StringKey.new (s : String) : StringKey := ⟨s⟩

/-- Source: impl Identifiable for Address in blockchain.rs, whose get_key
builds the string "addr_" followed by the Debug form of the address, here its
canonical representation. -/
def Address.get_key (a : Address) : StringKey :=
  StringKey.new ("addr_" ++ a.repr)

/-- Source: enum KvStoreError in blockchain.rs. -/
inductive KvStoreError where
  | Failure
deriving DecidableEq

/-- A byte string stored in the key-value store, each entry a byte value. -/
abbrev Bytes := List Nat

/-- The point-read side of the KvStore trait of blockchain.rs: get returns
Ok(Some(bytes)), Ok(None) for an absent key, or Err on store failure. A store
is modelled as the function an implementation realizes. -/
abbrev KvGet := StringKey → Except KvStoreError (Option Bytes)

/-- Outcome of running a piece of Rust code that may panic (unwrap on an Err,
out-of-bounds index, or an unimplemented body). -/
inductive RustResult (α : Type) where
  | ok (a : α)
  | panicked
deriving DecidableEq

/-- Modelled from the spec: the type Money lives in the missing primitives
module. The spec requires a non-negative scalar whose persistent encoding is
wide enough for its full range, so Money is modelled as Nat. -/
abbrev Money := Nat

/-- Little-endian base-256 decoding of a byte string, the meaning of the Rust
from_le_bytes family. -/
def fromLeBytes : Bytes → Nat
  | [] => 0
  | b :: bs => b + 256 * fromLeBytes bs

/-- Modelled from the spec: the full-width persistent encoding of a Money
value, fixed-width (8 bytes) little-endian as the spec design notes suggest
for an implementation that does not truncate. -/
def toLeBytes8 (n : Nat) : Bytes :=
  [n % 256, n / 256 % 256, n / 256 ^ 2 % 256, n / 256 ^ 3 % 256,
   n / 256 ^ 4 % 256, n / 256 ^ 5 % 256, n / 256 ^ 6 % 256, n / 256 ^ 7 % 256]

/-- Source: KvStoreChain::get_balance in blockchain.rs. The stored result is
unwrapped (a store error panics), an absent key yields 0, and a present value
b is decoded as Money::from_le_bytes([b[0]]): the index b[0] panics when the
stored value is empty, and otherwise only the first byte is decoded. -/
def get_balance (store : KvGet) (addr : Address) : RustResult Money :=
  match store addr.get_key with
  | .error _ => .panicked
  | .ok none => .ok 0
  | .ok (some []) => .panicked
  | .ok (some (b :: _)) => .ok (fromLeBytes [b])

/-- A store holding, under the key of address "a", the full-width persistent
encoding of the Money value 256; every other key is absent. -/
def c1Store : KvGet := fun k =>
  if k = Address.get_key ⟨"a"⟩ then .ok (some (toLeBytes8 256)) else .ok none

/-- A store whose every get fails. -/
def failStore : KvGet := fun _ => .error .Failure

/-- A store holding an empty byte string under every key. -/
def emptyValStore : KvGet := fun _ => .ok (some [])

/-- A store with no keys at all. -/
def emptyStore : KvGet := fun _ => .ok none

end Bazuka

namespace Bazuka

/-- C1: the store holds the full-width encoding of the Money value 256 under
the key of address "a", yet get_balance returns 0, not 256: the decode reads
only the low-order byte of the stored value, so persisted balances do not
round-trip the full range of Money. This evaluates the code at the failing
input of the claim. -/
theorem get_balance_truncates_c1 :
    get_balance c1Store ⟨"a"⟩ = .ok 0 ∧
    fromLeBytes (toLeBytes8 256) = 256 ∧
    get_balance c1Store ⟨"a"⟩ ≠ .ok (fromLeBytes (toLeBytes8 256)) := by
  refine ⟨rfl, rfl, by decide⟩

/-- C3: when the underlying store fails, get_balance panics (the Rust code
unwraps the store result) instead of signalling StoreFailure to its caller.
This evaluates the code at the failing input of the claim. -/
theorem get_balance_panics_on_store_failure_c3 :
    get_balance failStore ⟨"a"⟩ = .panicked := rfl

/-- C8: for every address whose key is absent from the store (never credited
or debited), get_balance returns zero. -/
theorem get_balance_absent_zero_c8 (store : KvGet) (addr : Address)
    (h : store addr.get_key = .ok none) :
    get_balance store addr = .ok 0 := by
  unfold get_balance
  rw [h]

/-- C8 witness: on the empty store, the address "a" has balance zero. -/
theorem get_balance_absent_zero_c8_witness :
    emptyStore (Address.get_key ⟨"a"⟩) = .ok none ∧
    get_balance emptyStore ⟨"a"⟩ = .ok 0 :=
  ⟨rfl, get_balance_absent_zero_c8 emptyStore ⟨"a"⟩ rfl⟩

/-- C10: get_balance is total only when every stored value under an address
key is non-empty: if the store returns a present empty value the unconditional
read of byte index 0 is out of bounds and the call panics, while a present
non-empty value makes get_balance return the decode of its first byte. -/
theorem get_balance_empty_value_panics_c10 (store : KvGet) (addr : Address) :
    (store addr.get_key = .ok (some []) → get_balance store addr = .panicked) ∧
    (∀ b bs, store addr.get_key = .ok (some (b :: bs)) →
      get_balance store addr = .ok (fromLeBytes [b])) := by
  constructor
  · intro h
    unfold get_balance
    rw [h]
  · intro b bs h
    unfold get_balance
    rw [h]

/-- C10 witness: on a store whose value under the key of address "a" is the
empty byte string, get_balance panics. -/
theorem get_balance_empty_value_panics_c10_witness :
    emptyValStore (Address.get_key ⟨"a"⟩) = .ok (some []) ∧
    get_balance emptyValStore ⟨"a"⟩ = .panicked :=
  ⟨rfl, (get_balance_empty_value_panics_c10 emptyValStore ⟨"a"⟩).1 rfl⟩

/-- C9: the address-to-key encoding is deterministic (equal addresses give
equal keys), injective (equal keys force equal addresses), and every account
key is the fixed string "addr_" followed by the canonical address
representation. -/
theorem get_key_deterministic_injective_c9 (a b : Address) :
    (a = b → a.get_key = b.get_key) ∧
    (a.get_key = b.get_key → a = b) ∧
    (a.get_key).val = "addr_" ++ a.repr := by
  refine ⟨fun h => by rw [h], fun h => ?_, rfl⟩
  have hv : "addr_" ++ a.repr = "addr_" ++ b.repr := congrArg StringKey.val h
  have hd : ("addr_" ++ a.repr).data = ("addr_" ++ b.repr).data := by rw [hv]
  have hd2 : "addr_".data ++ a.repr.data = "addr_".data ++ b.repr.data := by
    simpa [String.data_append] using hd
  have : a.repr.data = b.repr.data := List.append_cancel_left hd2
  cases a with
  | mk ra => cases b with
    | mk rb =>
      cases ra; cases rb
      simp_all

/-- C9 witness: the encoding evaluated at concrete addresses. -/
theorem get_key_deterministic_injective_c9_witness :
    ((⟨"a"⟩ : Address) = ⟨"a"⟩ → (Address.get_key ⟨"a"⟩) = Address.get_key ⟨"a"⟩) ∧
    ((Address.get_key ⟨"a"⟩) = Address.get_key ⟨"a"⟩ → (⟨"a"⟩ : Address) = ⟨"a"⟩) ∧
    (Address.get_key (⟨"a"⟩ : Address)).val = "addr_" ++ "a" :=
  get_key_deterministic_injective_c9 ⟨"a"⟩ ⟨"a"⟩

end Bazuka

namespace Bazuka

/- Embedding of src/node/api/transact_contract_payment.rs. The request type,
the mempool map and the validator live in modules outside the sources at
hand; they are modelled from the spec at their interface, while the body of
transact_contract_payment is embedded from the source. -/

/-- Modelled from the spec: the contract-payment transaction carried by the
request, with a stable identity used for mempool dedup. -/
structure ContractPayment where
  id : Nat
deriving DecidableEq

/-- Source: TransactionStats { first_seen: now } as constructed in
transact_contract_payment.rs; timestamps are naturals. -/
structure TransactionStats where
  first_seen : Nat
deriving DecidableEq

/-- Source: the response TransactContractPaymentResponse {} constructed in
transact_contract_payment.rs is an empty struct carrying no fields. -/
structure TransactContractPaymentResponse where
deriving DecidableEq

/-- Modelled from the spec: the node error type propagated by the question
mark operator when the validator fails; its exact variants live outside the
sources at hand, so it is kept abstract with one representative variant. -/
inductive NodeError where
  | failure
deriving DecidableEq

/-- Modelled from the spec: the contract_payment_mempool field of NodeContext
is declared outside the sources at hand; the insert call in the source is the
standard map insert, which binds the key to the new value, replacing any
existing binding. The map is modelled as an association list with at most one
binding per key. -/
abbrev Mempool := List (ContractPayment × TransactionStats)

/-- Map insert with the replace-on-existing-key semantics of the Rust
HashMap::insert call in the source. -/
def mempoolInsert (m : Mempool) (k : ContractPayment) (v : TransactionStats) :
    Mempool :=
  match m with
  | [] => [(k, v)]
  | (k1, v1) :: rest =>
    if k1 = k then (k, v) :: rest else (k1, v1) :: mempoolInsert rest k v

/-- Lookup of a key in the mempool. -/
def mempoolFind (m : Mempool) (k : ContractPayment) : Option TransactionStats :=
  match m with
  | [] => none
  | (k1, v1) :: rest => if k1 = k then some v1 else mempoolFind rest k

/-- Source: transact_contract_payment in transact_contract_payment.rs. The
validator result is propagated with the question mark operator; on Ok(true)
the transaction is inserted into the mempool with first_seen = now; on
Ok(false) nothing is inserted; the call always answers the empty response.
The NodeContext state is passed explicitly as the mempool, and the validator
(a method of the missing blockchain impl) is a parameter. -/
def transact_contract_payment
    (validate : ContractPayment → Except NodeError Bool)
    (now : Nat) (mempool : Mempool) (tx : ContractPayment) :
    Except NodeError (Mempool × TransactContractPaymentResponse) :=
  match validate tx with
  | .error e => .error e
  | .ok true => .ok (mempoolInsert mempool tx { first_seen := now }, {})
  | .ok false => .ok (mempool, {})

/-- A validator accepting every transaction. -/
def acceptAll : ContractPayment → Except NodeError Bool := fun _ => .ok true

/-- A validator rejecting every transaction. -/
def rejectAll : ContractPayment → Except NodeError Bool := fun _ => .ok false

end Bazuka

namespace Bazuka

/-- C2: admitting the identical valid transaction twice, at timestamps 10 and
then 20, starting from an empty mempool, succeeds both times and leaves
exactly one pending entry, but that entry carries first_seen = 20, the
timestamp of the second call: the insert of the source overwrites the
first-seen timestamp instead of leaving the first one in place. This
evaluates the code at the failing input of the claim. -/
theorem admit_twice_overwrites_first_seen_c2 :
    transact_contract_payment acceptAll 10 [] ⟨1⟩ =
      .ok ([(⟨1⟩, ⟨10⟩)], {}) ∧
    transact_contract_payment acceptAll 20 [(⟨1⟩, ⟨10⟩)] ⟨1⟩ =
      .ok ([(⟨1⟩, ⟨20⟩)], {}) ∧
    mempoolFind [(⟨1⟩, ⟨20⟩)] ⟨1⟩ = some ⟨20⟩ ∧
    (⟨20⟩ : TransactionStats) ≠ ⟨10⟩ := by
  refine ⟨rfl, rfl, rfl, by decide⟩

/-- C7 counterexample: a transaction that fails validation is answered with
the very same empty response as a transaction that passes validation, so the
response does not carry a rejection reason and does not distinguish
acceptance from rejection. -/
theorem reject_response_equals_accept_response_c7 :
    (transact_contract_payment rejectAll 10 [] ⟨1⟩).map Prod.snd =
      (transact_contract_payment acceptAll 10 [] ⟨1⟩).map Prod.snd := rfl

/-- C7 (amended): for every transaction whose validation answers false, the
call leaves the mempool unchanged (the transaction is never added to the
pending set) and returns the empty response, the same value returned on
acceptance; a validator error is the only distinguished outcome, propagated
as a NodeError. -/
theorem reject_not_added_c7 (validate : ContractPayment → Except NodeError Bool)
    (now : Nat) (m : Mempool) (tx : ContractPayment)
    (h : validate tx = .ok false) :
    transact_contract_payment validate now m tx = .ok (m, {}) ∧
    (∀ e, validate tx = .error e →
      transact_contract_payment validate now m tx = .error e) := by
  constructor
  · unfold transact_contract_payment
    rw [h]
  · intro e he
    rw [h] at he
    exact absurd he (by simp)

/-- C7 witness: a concrete rejected transaction is not added and gets the
empty response. -/
theorem reject_not_added_c7_witness :
    rejectAll ⟨1⟩ = .ok false ∧
    transact_contract_payment rejectAll 10 [] ⟨1⟩ = .ok ([], {}) :=
  ⟨rfl, (reject_not_added_c7 rejectAll 10 [] ⟨1⟩ rfl).1⟩

end Bazuka

namespace Bazuka

/- Ledger state machine. In the source, KvStoreChain::extend is
unimplemented!() and get_height is a stub, so only the declarations exist;
the following definitions are the block-application contract the spec
defines for them. -/

/-- Modelled from the spec: a Transaction moves Money from a sender to a
recipient; the spec scenarios also allow a credit from a genesis or faucet
source, modelled as an absent sender. -/
structure Transaction where
  sender : Option Address
  recipient : Address
  amount : Nat
deriving DecidableEq

/-- Modelled from the spec: a Block is an ordered sequence of Transactions
plus metadata, here the declared predecessor height. -/
structure Block where
  prev_height : Nat
  txs : List Transaction
deriving DecidableEq

/-- Modelled from the spec: the LedgerState is the full mapping from Address
to Money plus the current chain height. -/
structure LedgerState where
  balances : Address → Nat
  height : Nat

/-- Modelled from the spec: the rejection reasons of block application (the
source declares no such type; its only error type is the store failure). -/
inductive ExtendError where
  | chainDiscontinuity
  | insufficientFunds
deriving DecidableEq

/-- Modelled from the spec: one transaction applied to the balance map,
debiting the sender and crediting the recipient; a debit that would drive a
balance negative rejects with insufficientFunds; a faucet credit has no
debit. -/
def applyTx (bal : Address → Nat) (tx : Transaction) :
    Except ExtendError (Address → Nat) :=
  match tx.sender with
  | none => .ok (Function.update bal tx.recipient (bal tx.recipient + tx.amount))
  | some s =>
    if tx.amount ≤ bal s then
      let bal1 := Function.update bal s (bal s - tx.amount)
      .ok (Function.update bal1 tx.recipient (bal1 tx.recipient + tx.amount))
    else .error .insufficientFunds

/-- Modelled from the spec: the transactions of a block applied in order;
the first failing transaction rejects the whole block. -/
def applyTxs (bal : Address → Nat) :
    List Transaction → Except ExtendError (Address → Nat)
  | [] => .ok bal
  | tx :: rest =>
    match applyTx bal tx with
    | .ok bal1 => applyTxs bal1 rest
    | .error e => .error e

/-- Modelled from the spec: one block applied as a single atomic state
transition; a declared predecessor height different from the current height
rejects with chainDiscontinuity and a successful application increments the
height by one. -/
def applyBlock (st : LedgerState) (b : Block) : Except ExtendError LedgerState :=
  if b.prev_height = st.height then
    match applyTxs st.balances b.txs with
    | .ok bal1 => .ok { balances := bal1, height := st.height + 1 }
    | .error e => .error e
  else .error .chainDiscontinuity

/-- Modelled from the spec: extend applies each block in order, one atomic
transition per block, stopping at the point of first failure with the state
reached so far. -/
def extend (st : LedgerState) : List Block → LedgerState × Option ExtendError
  | [] => (st, none)
  | b :: rest =>
    match applyBlock st b with
    | .ok st1 => extend st1 rest
    | .error e => (st, some e)

/-- Modelled from the spec: get_height returns the number of blocks applied
so far (the source stub always answers zero, which agrees with the contract
only on the empty ledger). -/
def get_height (st : LedgerState) : Nat := st.height

/-- The empty ledger: every balance zero, no block applied. -/
def initLedger : LedgerState := { balances := fun _ => 0, height := 0 }

/-- Money credited from the faucet by one transaction: its amount when it has
no sender, zero otherwise. -/
def txMinted (tx : Transaction) : Nat :=
  match tx.sender with
  | none => tx.amount
  | some _ => 0

/-- Total Money credited from the faucet by the transactions of a list. -/
def mintedTxs : List Transaction → Nat
  | [] => 0
  | tx :: rest => txMinted tx + mintedTxs rest

/-- Total Money credited from the faucet by the transactions of a block
list. -/
def mintedBlocks : List Block → Nat
  | [] => 0
  | b :: rest => mintedTxs b.txs + mintedBlocks rest

/-- A concrete block used by the witnesses: predecessor height 0 and a single
faucet credit of 100 to address "A". -/
def faucetBlock : Block := { prev_height := 0, txs := [⟨none, ⟨"A"⟩, 100⟩] }

end Bazuka

namespace Bazuka

/-- C4: for every run of extend in which every block is accepted, the final
height equals the prior height plus the number of blocks, each accepted block
adding exactly one; and get_height of the empty ledger is zero. -/
theorem extend_height_c4 (st st1 : LedgerState) (blocks : List Block)
    (h : extend st blocks = (st1, none)) :
    get_height st1 = get_height st + blocks.length ∧
    get_height initLedger = 0 := by
  refine ⟨?_, rfl⟩
  induction blocks generalizing st with
  | nil =>
    unfold extend at h
    cases h
    simp [get_height]
  | cons b rest ih =>
    unfold extend at h
    cases hb : applyBlock st b with
    | ok st2 =>
      rw [hb] at h
      have := ih st2 h
      unfold applyBlock at hb
      by_cases hh : b.prev_height = st.height
      · rw [if_pos hh] at hb
        cases ht : applyTxs st.balances b.txs with
        | ok bal1 =>
          rw [ht] at hb
          cases hb
          simp only [get_height] at this ⊢
          simp only [this, List.length_cons, get_height]
          omega
        | error e => rw [ht] at hb; cases hb
      · rw [if_neg hh] at hb; cases hb
    | error e =>
      rw [hb] at h
      cases h

/-- C4 witness: from the empty ledger, extending by the single faucet block
yields height 1 = 0 + 1. -/
theorem extend_height_c4_witness :
    extend initLedger [faucetBlock] =
      ({ balances := Function.update (fun _ => 0) ⟨"A"⟩ 100, height := 1 },
        none) ∧
    get_height { balances := Function.update (fun _ => (0 : Nat)) ⟨"A"⟩ 100,
                 height := 1 } = get_height initLedger + 1 :=
  ⟨rfl, (extend_height_c4 initLedger _ [faucetBlock] rfl).1⟩

/-- C6: a block whose declared predecessor height differs from the current
height is rejected with chainDiscontinuity, and the returned state is the
input state itself: all balances and the height are identical to before the
call. -/
theorem extend_discontinuity_c6 (st : LedgerState) (b : Block)
    (h : b.prev_height ≠ st.height) :
    extend st [b] = (st, some .chainDiscontinuity) := by
  unfold extend applyBlock
  rw [if_neg h]

/-- C6 witness: a block declaring predecessor height 5 against the empty
ledger (height 0) is rejected and the state is unchanged. -/
theorem extend_discontinuity_c6_witness :
    ({ prev_height := 5, txs := [] } : Block).prev_height ≠ initLedger.height ∧
    extend initLedger [{ prev_height := 5, txs := [] }] =
      (initLedger, some .chainDiscontinuity) :=
  ⟨by decide, extend_discontinuity_c6 initLedger { prev_height := 5, txs := [] }
    (by decide)⟩

end Bazuka

namespace Bazuka

/- Conservation of Money under block application. -/

/-- Replacing one value in a balance map shifts a finite sum by the
difference between the new and the old value at that address. -/
lemma sum_update_nat (S : Finset Address) (f : Address → Nat) (a : Address)
    (v : Nat) (ha : a ∈ S) :
    (∑ x in S, Function.update f a v x) = (∑ x in S, f x) - f a + v := by
  rw [Finset.sum_update_of_mem ha]
  have h2 := Finset.add_sum_erase S f ha
  rw [Finset.sdiff_singleton_eq_erase]
  omega

/-- Every single balance is at most the sum of the balances over a set it
belongs to. -/
lemma le_sum_of_mem (S : Finset Address) (f : Address → Nat) (a : Address)
    (ha : a ∈ S) : f a ≤ ∑ x in S, f x :=
  Finset.single_le_sum (fun i _ => Nat.zero_le (f i)) ha

/-- One applied transaction changes the sum of the balances over a set
containing its addresses by exactly its faucet amount: a transfer between
accounts conserves the sum, a faucet credit adds its amount. -/
lemma applyTx_sum (S : Finset Address) (bal bal1 : Address → Nat)
    (tx : Transaction) (h : applyTx bal tx = .ok bal1)
    (hs : ∀ s, tx.sender = some s → s ∈ S) (hd : tx.recipient ∈ S) :
    ∑ x in S, bal1 x = (∑ x in S, bal x) + txMinted tx := by
  cases hsend : tx.sender with
  | none =>
    simp only [applyTx, hsend, Except.ok.injEq] at h
    subst h
    rw [sum_update_nat S bal tx.recipient _ hd]
    have h1 := le_sum_of_mem S bal tx.recipient hd
    simp only [txMinted, hsend]
    omega
  | some s =>
    have hsS : s ∈ S := hs s hsend
    by_cases hle : tx.amount ≤ bal s
    · simp only [applyTx, hsend, if_pos hle, Except.ok.injEq] at h
      subst h
      rw [sum_update_nat S (Function.update bal s (bal s - tx.amount))
        tx.recipient _ hd]
      have hgsum := sum_update_nat S bal s (bal s - tx.amount) hsS
      have h1 := le_sum_of_mem S bal s hsS
      have h2 := le_sum_of_mem S (Function.update bal s (bal s - tx.amount))
        tx.recipient hd
      simp only [txMinted, hsend]
      omega
    · simp only [applyTx, hsend, if_neg hle] at h
      exact Except.noConfusion h

/-- The transactions of a block, applied in order, change the sum of the
balances over a set containing all their addresses by exactly the total
faucet amount of the list. -/
lemma applyTxs_sum (S : Finset Address) (txs : List Transaction) :
    ∀ bal bal1 : Address → Nat, applyTxs bal txs = .ok bal1 →
    (∀ tx ∈ txs, (∀ s, tx.sender = some s → s ∈ S) ∧ tx.recipient ∈ S) →
    ∑ x in S, bal1 x = (∑ x in S, bal x) + mintedTxs txs := by
  induction txs with
  | nil =>
    intro bal bal1 h _
    simp only [applyTxs, Except.ok.injEq] at h
    subst h
    simp [mintedTxs]
  | cons tx rest ih =>
    intro bal bal1 h hmem
    cases htx : applyTx bal tx with
    | ok bal2 =>
      simp only [applyTxs, htx] at h
      have hrest := ih bal2 bal1 h
        (fun t ht => hmem t (List.mem_cons_of_mem tx ht))
      have hone := applyTx_sum S bal bal2 tx htx
        (hmem tx (List.mem_cons_self tx rest)).1
        (hmem tx (List.mem_cons_self tx rest)).2
      rw [hrest, hone]
      simp only [mintedTxs]
      omega
    | error e =>
      simp only [applyTxs, htx] at h
      exact Except.noConfusion h

/-- One accepted block changes the sum of the balances over a set containing
all its addresses by exactly its total faucet amount. -/
lemma applyBlock_sum (S : Finset Address) (st st1 : LedgerState) (b : Block)
    (h : applyBlock st b = .ok st1)
    (hmem : ∀ tx ∈ b.txs, (∀ s, tx.sender = some s → s ∈ S) ∧ tx.recipient ∈ S) :
    ∑ x in S, st1.balances x = (∑ x in S, st.balances x) + mintedTxs b.txs := by
  unfold applyBlock at h
  by_cases hh : b.prev_height = st.height
  · rw [if_pos hh] at h
    cases ht : applyTxs st.balances b.txs with
    | ok bal1 =>
      rw [ht] at h
      cases h
      exact applyTxs_sum S b.txs st.balances bal1 ht hmem
    | error e =>
      rw [ht] at h
      cases h
  · rw [if_neg hh] at h
    cases h

/-- C5: for every run of extend in which every block is accepted, the sum of
the balances over any finite set of addresses containing every address
touched by the blocks changes by exactly the net of the transaction amounts
of those blocks: transfers between accounts conserve the sum and only faucet
credits add to it; no value is created or destroyed otherwise. -/
theorem extend_conserves_c5 (S : Finset Address) (blocks : List Block) :
    ∀ st st1, extend st blocks = (st1, none) →
    (∀ b ∈ blocks, ∀ tx ∈ b.txs,
      (∀ s, tx.sender = some s → s ∈ S) ∧ tx.recipient ∈ S) →
    ∑ x in S, st1.balances x = (∑ x in S, st.balances x) + mintedBlocks blocks := by
  induction blocks with
  | nil =>
    intro st st1 h _
    simp only [extend, Prod.mk.injEq] at h
    rw [h.1]
    simp [mintedBlocks]
  | cons b rest ih =>
    intro st st1 h hmem
    cases hb : applyBlock st b with
    | ok st2 =>
      simp only [extend, hb] at h
      have hrest := ih st2 st1 h
        (fun b1 hb1 => hmem b1 (List.mem_cons_of_mem b hb1))
      have hone := applyBlock_sum S st st2 b hb
        (hmem b (List.mem_cons_self b rest))
      rw [hrest, hone]
      simp only [mintedBlocks]
      omega
    | error e =>
      simp only [extend, hb, Prod.mk.injEq] at h
      exact absurd h.2 (by simp)

/-- The ledger state reached by extending the empty ledger with the single
faucet block. -/
def c5State : LedgerState :=
  { balances := Function.update (fun _ => 0) ⟨"A"⟩ 100, height := 1 }

/-- C5 witness: extending the empty ledger with the faucet block crediting
100 to address "A" raises the sum of the balances over the singleton set of
"A" by exactly the minted 100. -/
theorem extend_conserves_c5_witness :
    extend initLedger [faucetBlock] = (c5State, none) ∧
    ∑ x in ({⟨"A"⟩} : Finset Address), c5State.balances x =
      (∑ x in ({⟨"A"⟩} : Finset Address), initLedger.balances x) +
        mintedBlocks [faucetBlock] := by
  refine ⟨rfl, ?_⟩
  refine extend_conserves_c5 {⟨"A"⟩} [faucetBlock] initLedger c5State rfl ?_
  intro b hb tx htx
  simp only [faucetBlock, List.mem_singleton] at hb
  subst hb
  simp only [List.mem_singleton] at htx
  subst htx
  constructor
  · intro s hs
    simp at hs
  · simp

end Bazuka
